import Mathlib

/-!
Verification development for the MergeTree part writer and finalization
pipeline (`MergedBlockOutputStream`) and the TTL bookkeeping stage
(`TTLCalcTransform`).

The C++ sources are embedded shallowly: each file written by
`finalizePartOnDisk` becomes an entry of a `DiskState`, the checksums map
becomes an association list, and the externally observable actions of the
commit handle (`Finalizer`) become an explicit event trace.
-/

namespace ClickHouse

/-- Content of one file written during part finalization.  Each auxiliary
file kind gets its own constructor, so theorems can speak about "a minmax
index file was (not) written" without relying on file names chosen by
collaborator code (`partition.store`, `minmax_idx->store`).  `natContent`
is used for the two files whose payload is a plain decimal integer
(`count.txt`, `metadata_version.txt`); `checksumsContent` records the set
of keys of the checksums map at the moment `checksums.txt` is written. -/
inductive FileContent where
  | natContent (n : Nat)
  | uuidContent
  | partitionContent
  | minmaxContent
  | sourcePartsContent
  | ttlContent
  | serializationContent
  | columnsContent
  | substreamsContent
  | codecContent (desc : String)
  | projContent
  | columnDataContent (tag : String)
  | checksumsContent (ks : List String)
deriving DecidableEq, Repr

/-- One file written into the part directory: relative name plus content. -/
structure WrittenFile where
  name : String
  content : FileContent
deriving DecidableEq, Repr

/-- `MergeTreeData::DataPart::Checksums.files`: a map from relative file
name to its checksum data.  The checksum of a hashed file is computed over
its exact written byte stream, which the model represents by storing the
written content itself. -/
abbrev Checksums := List (String × FileContent)

/-- The keys of a checksums map. -/
def checksumKeys (c : Checksums) : List String := c.map Prod.fst

/-- `map[k] = v` on the association list: replace the entry if the key is
present, append it otherwise (std::map insert-or-assign behaviour of
`checksums.files[filename] = ...` and `Checksums::addFile`). -/
def setEntry (c : Checksums) (k : String) (v : FileContent) : Checksums :=
  if c.any (fun kv => kv.1 = k) then
    c.map (fun kv => if kv.1 = k then (k, v) else kv)
  else
    c ++ [(k, v)]

/-- `checksums.files.erase(name)`. -/
def eraseEntry (c : Checksums) (k : String) : Checksums :=
  c.filter (fun kv => kv.1 ≠ k)

/-- State accumulated by `finalizePartOnDisk`: the files pushed to
`written_files` in the order they were written, and the checksums map. -/
structure DiskState where
  written : List WrittenFile
  checksums : Checksums
deriving DecidableEq, Repr

/-- `write_hashed_file` of `finalizePartOnDisk`: write the file, and record
its checksum (computed over the exact written content) under its name. -/
def writeHashedFile (s : DiskState) (filename : String) (content : FileContent) : DiskState :=
  { written := s.written ++ [⟨filename, content⟩]
    checksums := setEntry s.checksums filename content }

/-- `write_plain_file` of `finalizePartOnDisk`: write the file without
touching the checksums map. -/
def writePlainFile (s : DiskState) (filename : String) (content : FileContent) : DiskState :=
  { s with written := s.written ++ [⟨filename, content⟩] }

/-- ClickHouse error codes relevant to the modelled paths. -/
inductive ErrorCode where
  | LOGICAL_ERROR
  | SIZES_OF_COLUMNS_DOESNT_MATCH
deriving DecidableEq, Repr

/-- An exception thrown by the writer/finalizer. -/
structure PartError where
  code : ErrorCode
  message : String
deriving DecidableEq, Repr

/-- The fields of `IMergeTreeDataPart` (`new_part`) that
`finalizePartOnDisk` consults.  `partitionFile` is the optional file
written by `partition.store` and `minmaxIdxFiles` the files written by
`minmax_idx->store` when the index is initialized; both collaborators are
outside this translation unit, so their file names are data of the model
(the spec names them `partition.dat` and `minmax_<col>.idx`). -/
structure Part where
  name : String
  isProjectionPart : Bool
  hasUuid : Bool
  customPartitioning : Bool
  partitionFile : Option String
  minmaxInitialized : Bool
  minmaxIdxFiles : List String
  sourcePartsSetEmpty : Bool
  ttlInfosEmpty : Bool
  serializationInfosEmpty : Bool
  metadataVersion : Nat
  projectionParts : List String
deriving DecidableEq, Repr

/-- Modelled from the spec: the bit-exact auxiliary file names
(`IMergeTreeDataPart::UUID_FILE_NAME` and friends live in headers outside
the sampled sources; §6 of the spec lists the names). -/
def UUID_FILE_NAME : String := "uuid.txt"

def SOURCE_PARTS_SET_FILENAME : String := "source_parts_set"

def SERIALIZATION_FILE_NAME : String := "serialization.json"

def COLUMNS_SUBSTREAMS_FILE_NAME : String := "columns_substreams.txt"

def METADATA_VERSION_FILE_NAME : String := "metadata_version.txt"

def DEFAULT_COMPRESSION_CODEC_FILE_NAME : String := "default_compression_codec.txt"

/-- The guard of `throw Exception(LOGICAL_ERROR, "MinMax index was not
initialized for new non-empty part ...")`: reached only for non-projection
parts under the custom-partitioning format version, when the index is not
initialized and the accumulated row count is non-zero. -/
def minmaxUninitViolation (p : Part) (rowsCount : Nat) : Bool :=
  !p.isProjectionPart && p.customPartitioning && !p.minmaxInitialized && rowsCount != 0

/-- Lines 302-317: for a non-projection part, write `uuid.txt` when the
part carries a UUID and, under custom partitioning, whatever file
`partition.store` produces (both hashed). -/
def writeUuidPartitionSteps (p : Part) (s : DiskState) : DiskState :=
  if p.isProjectionPart then s
  else
    let s := if p.hasUuid then writeHashedFile s UUID_FILE_NAME .uuidContent else s
    if p.customPartitioning then
      match p.partitionFile with
      | some f => writeHashedFile s f .partitionContent
      | none => s
    else s

/-- The fold of `minmax_idx->store`: write one hashed file per min-max
index file. -/
def minmaxFold (files : List String) (s : DiskState) : DiskState :=
  files.foldl (fun t f => writeHashedFile t f .minmaxContent) s

/-- Lines 319-337 minus the throw: for a non-projection part under custom
partitioning, write the minmax index files when the index is initialized,
then `source_parts_set` when the part is patch-derived. -/
def writeMinmaxSourceSteps (p : Part) (s : DiskState) : DiskState :=
  if p.isProjectionPart || !p.customPartitioning then s
  else
    let s :=
      if p.minmaxInitialized then minmaxFold p.minmaxIdxFiles s
      else s
    if !p.sourcePartsSetEmpty then
      writeHashedFile s SOURCE_PARTS_SET_FILENAME .sourcePartsContent
    else s

/-- Lines 341-344: `count.txt` holds the plain decimal row count, hashed. -/
def writeCountStep (rowsCount : Nat) (s : DiskState) : DiskState :=
  writeHashedFile s "count.txt" (.natContent rowsCount)

/-- Lines 346-352: `ttl.txt`, only when the part's TTL infos are non-empty. -/
def writeTtlStep (p : Part) (s : DiskState) : DiskState :=
  if !p.ttlInfosEmpty then writeHashedFile s "ttl.txt" .ttlContent else s

/-- Lines 354-361: `serialization.json`, only when some column has a
non-default serialization. -/
def writeSerializationStep (p : Part) (s : DiskState) : DiskState :=
  if !p.serializationInfosEmpty then
    writeHashedFile s SERIALIZATION_FILE_NAME .serializationContent
  else s

/-- Lines 363-366: the plain `columns.txt`. -/
def writeColumnsStep (s : DiskState) : DiskState :=
  writePlainFile s "columns.txt" .columnsContent

/-- Lines 379-387: the plain `columns_substreams.txt`, only when the merged
substreams descriptor is non-empty. -/
def writeSubstreamsStep (columnsSubstreams : List String) (s : DiskState) : DiskState :=
  if !columnsSubstreams.isEmpty then
    writePlainFile s COLUMNS_SUBSTREAMS_FILE_NAME .substreamsContent
  else s

/-- Lines 389-392: the plain `metadata_version.txt`, a plain decimal. -/
def writeMetadataVersionStep (p : Part) (s : DiskState) : DiskState :=
  writePlainFile s METADATA_VERSION_FILE_NAME (.natContent p.metadataVersion)

/-- Lines 394-400: the plain `default_compression_codec.txt` carrying the
codec description (taken only when a codec is present). -/
def writeCodecStep (codecDesc : String) (s : DiskState) : DiskState :=
  writePlainFile s DEFAULT_COMPRESSION_CODEC_FILE_NAME (.codecContent codecDesc)

/-- Lines 406-409: the plain `checksums.txt`, whose content is the
checksums map as accumulated so far. -/
def writeChecksumsStep (s : DiskState) : DiskState :=
  writePlainFile s "checksums.txt" (.checksumsContent (checksumKeys s.checksums))

/-- The disk state after every write up to and including
`metadata_version.txt` (the last write before the codec check). -/
def diskAfterMetadata (p : Part) (rowsCount : Nat) (c0 : Checksums)
    (columnsSubstreams : List String) : DiskState :=
  writeMetadataVersionStep p
    (writeSubstreamsStep columnsSubstreams
      (writeColumnsStep
        (writeSerializationStep p
          (writeTtlStep p
            (writeCountStep rowsCount
              (writeMinmaxSourceSteps p
                (writeUuidPartitionSteps p ⟨[], c0⟩)))))))

/-- `MergedBlockOutputStream::finalizePartOnDisk` (lines 274-412).  Result:
the files written (in order) together with the checksums map, and the
exception if one was thrown.  The two throw points abort the sequence with
the files written so far.  (In the source the minmax throw is the
`else if (rows_count)` arm between the partition write and the minmax
store; hoisting the check before the minmax/source writes preserves the
control flow, since the store arm and the throw arm are exclusive.) -/
def finalizePartOnDisk (p : Part) (rowsCount : Nat) (c0 : Checksums)
    (columnsSubstreams : List String) (defaultCodec : Option String) :
    DiskState × Option PartError :=
  if minmaxUninitViolation p rowsCount then
    (writeUuidPartitionSteps p ⟨[], c0⟩,
      some ⟨.LOGICAL_ERROR, "MinMax index was not initialized for new non-empty part"⟩)
  else
    match defaultCodec with
    | none =>
        (diskAfterMetadata p rowsCount c0 columnsSubstreams,
          some ⟨.LOGICAL_ERROR, "Compression codec have to be specified for part on disk"⟩)
    | some codecDesc =>
        (writeChecksumsStep (writeCodecStep codecDesc
            (diskAfterMetadata p rowsCount c0 columnsSubstreams)), none)

/-! ## The part writer (`write` / `writeWithPermutation` / `writeImpl`) -/

/-- A column batch (`Block`): the lengths of its columns.  `rows()` is the
length of the first column; `checkNumberOfRows` demands all columns agree. -/
structure Block where
  columnRows : List Nat
deriving DecidableEq, Repr

/-- `Block::rows()`. -/
def Block.rows (b : Block) : Nat := b.columnRows.headD 0

/-- `Block::checkNumberOfRows()` as a predicate: every column has the same
number of rows (the source throws otherwise). -/
def Block.checkNumberOfRows (b : Block) : Bool :=
  b.columnRows.all (fun n => n = b.rows)

/-- Externally observable actions of the writer, the pending file handles
and the storage transaction, in the order they are performed. -/
inductive Event where
  | writerWrite (rows : Nat)
  | serializationAdd (rows : Nat)
  | writerFinish (sync : Bool)
  | writerCancel
  | fileFinalize (name : String)
  | fileSync (name : String)
  | fileCancel (name : String)
  | commitTransaction
  | beginTransaction
  | removeFile (name : String)
deriving DecidableEq, Repr

/-- Does the event make a pending write durable / visible?  `finalize` and
`sync` on a file and committing the storage transaction do; cancelling a
writer or a pending file does not. -/
def Event.makesVisible : Event → Bool
  | .fileFinalize _ => true
  | .fileSync _ => true
  | .commitTransaction => true
  | _ => false

/-- The mutable state of the stream that `writeImpl` updates: the row
counter and, when column pruning (`reset_columns`) is enabled, the batches
recorded into `new_serialization_infos`. -/
structure StreamState where
  rows_count : Nat
  reset_columns : Bool
  serialization_rows : List Nat
deriving DecidableEq, Repr

/-- The stream state right after construction. -/
def initialStream (resetColumns : Bool) : StreamState :=
  ⟨0, resetColumns, []⟩

/-- `MergedBlockOutputStream::writeImpl` (lines 414-426): check column
sizes, return early on an empty batch, otherwise feed the batch to the
per-column writer, record serialization statistics when pruning is
enabled, and add the batch's rows to the row counter. -/
def writeImpl (s : StreamState) (b : Block) : Except PartError (StreamState × List Event) :=
  if !b.checkNumberOfRows then
    .error ⟨.SIZES_OF_COLUMNS_DOESNT_MATCH, "Sizes of columns does not match"⟩
  else
    let rows := b.rows
    if rows = 0 then
      .ok (s, [])
    else
      .ok
        ({ s with
            rows_count := s.rows_count + rows
            serialization_rows :=
              if s.reset_columns then s.serialization_rows ++ [rows] else s.serialization_rows },
          Event.writerWrite rows ::
            (if s.reset_columns then [Event.serializationAdd rows] else []))

/-- A sequence of `write` / `writeWithPermutation` calls (each is
`writeImpl`; the permutation only affects row order inside the column
writer, not the stream state). -/
def writeMany (s : StreamState) (bs : List Block) : Except PartError (StreamState × List Event) :=
  match bs with
  | [] => .ok (s, [])
  | b :: rest =>
    match writeImpl s b with
    | .error e => .error e
    | .ok (s1, evs1) =>
      match writeMany s1 rest with
      | .error e => .error e
      | .ok (s2, evs2) => .ok (s2, evs1 ++ evs2)

/-! ## The commit handle (`MergedBlockOutputStream::Finalizer`) -/

/-- `Finalizer::Impl` (lines 102-120): the files scheduled for deletion
after finish, the written-but-not-yet-durable file handles (by name), and
the sync flag. -/
structure FinalizerImpl where
  files_to_remove_after_finish : List String
  written_files : List String
  sync : Bool
deriving DecidableEq, Repr

/-- The per-file part of `Finalizer::Impl::finish` (lines 142-147): each
written file is finalized and, when `sync` is set, synced. -/
def finalizeSyncEvents (sync : Bool) : List String → List Event
  | [] => []
  | f :: fs =>
      Event.fileFinalize f :: ((if sync then [Event.fileSync f] else []) ++
        finalizeSyncEvents sync fs)

/-- `Finalizer::Impl::finish` (lines 138-165) as its event trace: finish
the writer, finalize (and optionally sync) every written file, then — only
when there are files to remove — commit the storage transaction and begin
a new one, and finally remove the scheduled files. -/
def FinalizerImpl.finishEvents (i : FinalizerImpl) : List Event :=
  Event.writerFinish i.sync ::
    (finalizeSyncEvents i.sync i.written_files ++
      ((if i.files_to_remove_after_finish.isEmpty then []
        else [Event.commitTransaction, Event.beginTransaction]) ++
        i.files_to_remove_after_finish.map Event.removeFile))

/-- `Finalizer::Impl::cancel` (lines 167-175) as its event trace: cancel
the writer, then cancel every pending written file. -/
def FinalizerImpl.cancelEvents (i : FinalizerImpl) : List Event :=
  Event.writerCancel :: i.written_files.map Event.fileCancel

/-- `MergedBlockOutputStream::Finalizer`: a single-use handle holding an
optional `Impl` (`std::unique_ptr<Impl> impl`). -/
structure Finalizer where
  impl : Option FinalizerImpl
deriving DecidableEq, Repr

/-- `Finalizer::finish` (lines 122-128): move the impl out (leaving the
handle empty) and run its finish when it was present. -/
def Finalizer.finish (f : Finalizer) : Finalizer × List Event :=
  match f.impl with
  | some i => (⟨none⟩, i.finishEvents)
  | none => (⟨none⟩, [])

/-- `Finalizer::cancel` (lines 130-136): move the impl out (leaving the
handle empty) and run its cancel when it was present. -/
def Finalizer.cancel (f : Finalizer) : Finalizer × List Event :=
  match f.impl with
  | some i => (⟨none⟩, i.cancelEvents)
  | none => (⟨none⟩, [])

/-- `Finalizer::~Finalizer` (lines 181-185): if the impl is still present,
invoke `cancel`; otherwise do nothing. -/
def Finalizer.destructor (f : Finalizer) : List Event :=
  match f.impl with
  | some _ => (Finalizer.cancel f).2
  | none => []

/-! ## `finalizePartAsync` and the synchronous `finalizePart` -/

/-- The writer-side data `finalizePartAsync` consumes.
`writer_checksums` / `checksums_to_remove` are what
`writer->fillChecksums(checksums, checksums_to_remove)` produces;
`pruned_files` is the set returned by `removeEmptyColumnsFromPart` when
column pruning (`reset_columns`) is enabled; `columns_substreams` is the
result of `ColumnsSubstreams::merge` of the writer's substreams with any
additional ones (the merge itself lives outside the sampled sources and is
taken as an input). -/
structure WriterState where
  rows_count : Nat
  reset_columns : Bool
  writer_checksums : Checksums
  checksums_to_remove : List String
  pruned_files : List String
  columns_substreams : List String
deriving DecidableEq, Repr

/-- Lines 269-271: wrap the result of `finalizePartOnDisk` into the commit
handle — the impl holds the deferred deletions, the names of the written
file handles, and the sync flag (a thrown exception propagates instead). -/
def wrapFinalizer (sync : Bool) (filesToRemoveAfterSync : List String) :
    DiskState × Option PartError → Except PartError (Finalizer × DiskState)
  | (_, some e) => .error e
  | (s, none) =>
      .ok (⟨some ⟨filesToRemoveAfterSync, s.written.map WrittenFile.name, sync⟩⟩, s)

/-- `MergedBlockOutputStream::finalizePartAsync` (lines 198-272): start
from any externally supplied checksums, fold in the writer's own, erase
the entries the writer marked for removal, add one `.proj` entry per
projection part; under column pruning, schedule the pruned files for
deletion after finish and drop their checksum entries; then run
`finalizePartOnDisk` and wrap the surviving file handles into a
`Finalizer` whose impl also carries the deferred deletions.  A throw in
`finalizePartOnDisk` propagates. -/
def finalizePartAsync (w : WriterState) (p : Part) (sync : Bool)
    (additionalColumnChecksums : Option Checksums) (defaultCodec : Option String) :
    Except PartError (Finalizer × DiskState) :=
  let checksums :=
    match additionalColumnChecksums with
    | some c => c
    | none => []
  let checksums := w.writer_checksums.foldl (fun acc kv => setEntry acc kv.1 kv.2) checksums
  let checksums := w.checksums_to_remove.foldl eraseEntry checksums
  let checksums :=
    p.projectionParts.foldl (fun acc pn => setEntry acc (pn ++ ".proj") .projContent) checksums
  let filesToRemoveAfterSync := if w.reset_columns then w.pruned_files else []
  let checksums :=
    if w.reset_columns then w.pruned_files.foldl eraseEntry checksums else checksums
  wrapFinalizer sync filesToRemoveAfterSync
    (finalizePartOnDisk p w.rows_count checksums w.columns_substreams defaultCodec)

/-- `MergedBlockOutputStream::finalizePart` (lines 188-196):
`finalizePartAsync(...).finish()`.  The handle returned by the call is a
temporary: after `finish` returns, its destructor runs, contributing the
trailing `destructor` events. -/
def finalizePart (w : WriterState) (p : Part) (sync : Bool)
    (additionalColumnChecksums : Option Checksums) (defaultCodec : Option String) :
    Except PartError (DiskState × List Event) :=
  match finalizePartAsync w p sync additionalColumnChecksums defaultCodec with
  | .error e => .error e
  | .ok (finalizer, s) =>
      let r := finalizer.finish
      .ok (s, r.2 ++ r.1.destructor)

/-- The combination the source comment documents and a caller would write
by hand: `finalizePartAsync` followed immediately by `finish` on the
returned handle, with no destructor contribution.  `finalizePart` is
claimed observably equivalent to this. -/
def finalizeAsyncThenFinish (w : WriterState) (p : Part) (sync : Bool)
    (additionalColumnChecksums : Option Checksums) (defaultCodec : Option String) :
    Except PartError (DiskState × List Event) :=
  match finalizePartAsync w p sync additionalColumnChecksums defaultCodec with
  | .error e => .error e
  | .ok (finalizer, s) => .ok (s, (finalizer.finish).2)

/-! ## TTL bookkeeping (`TTLCalcTransform` and its update algorithms) -/

/-- Modelled from the spec: a TTL bound for one rule, "a pair of (min
timestamp, max timestamp) observed across processed rows"
(`MergeTreeDataPartTTLInfo`, outside the sampled sources).  `none` means
no bound has been recorded. -/
abbrev TTLInfo := Option (Nat × Nat)

/-- Modelled from the spec: updating a bound with one observed timestamp
widens it to cover the timestamp. -/
def ttlUpdate (i : TTLInfo) (t : Nat) : TTLInfo :=
  match i with
  | none => some (t, t)
  | some (lo, hi) => some (Nat.min lo t, Nat.max hi t)

/-- Lookup in a per-rule map keyed by result-column name;
`old_ttl_infos.rows_where_ttl[key]` default-constructs an empty bound when
the key is missing, which the model renders as `none`. -/
def lookupTTL (m : List (String × TTLInfo)) (k : String) : TTLInfo :=
  match m.find? (fun kv => kv.1 = k) with
  | some kv => kv.2
  | none => none

/-- `m[k] = v` on a per-rule map: replace or append. -/
def setTTL (m : List (String × TTLInfo)) (k : String) (v : TTLInfo) :
    List (String × TTLInfo) :=
  if m.any (fun kv => kv.1 = k) then
    m.map (fun kv => if kv.1 = k then (k, v) else kv)
  else
    m ++ [(k, v)]

/-- `MergeTreeDataPartTTLInfos` as `TTLCalcTransform` uses it: one bound
for the table-rows rule and one map per rule kind, keyed by result-column
(or column) name. -/
structure TTLInfos where
  table_ttl : TTLInfo
  columns_ttl : List (String × TTLInfo)
  rows_where_ttl : List (String × TTLInfo)
  group_by_ttl : List (String × TTLInfo)
  moves_ttl : List (String × TTLInfo)
  recompression_ttl : List (String × TTLInfo)
deriving DecidableEq, Repr

/-- `data_part->ttl_infos = {}`: the value-initialized TTL info structure. -/
def emptyTTLInfos : TTLInfos :=
  ⟨none, [], [], [], [], []⟩

/-- `TTLUpdateField` (which field of the part's TTL infos an update
algorithm maintains). -/
inductive TTLUpdateField where
  | TABLE_TTL
  | ROWS_WHERE_TTL
  | GROUP_BY_TTL
  | COLUMNS_TTL
  | MOVES_TTL
  | RECOMPRESSION_TTL
deriving DecidableEq, Repr

/-- One `TTLUpdateInfoAlgorithm` instance: the field and key it maintains,
the pre-existing bound it was constructed from, the `force` flag, and its
running bound. -/
structure TTLUpdateInfoAlgorithm where
  ttl_update_field : TTLUpdateField
  ttl_update_key : String
  old_ttl_info : TTLInfo
  force : Bool
  new_ttl_info : TTLInfo
deriving DecidableEq, Repr

/-- Modelled from the spec: constructing a `TTLUpdateInfoAlgorithm` (its
translation unit is outside the sampled sources) seeds the running bound
"from the part's pre-existing TTL info unless a `force` flag requests a
clean recomputation". -/
def mkTTLUpdateInfoAlgorithm (field : TTLUpdateField) (key : String)
    (oldInfo : TTLInfo) (force : Bool) : TTLUpdateInfoAlgorithm :=
  ⟨field, key, oldInfo, force, if force then none else oldInfo⟩

/-- Modelled from the spec: consuming batches feeds the rule's evaluated
timestamps of the matching rows into the running bound. -/
def TTLUpdateInfoAlgorithm.executeRows (a : TTLUpdateInfoAlgorithm)
    (timestamps : List Nat) : TTLUpdateInfoAlgorithm :=
  { a with new_ttl_info := timestamps.foldl ttlUpdate a.new_ttl_info }

/-- Modelled from the spec: `TTLUpdateInfoAlgorithm::finalize` "persists
the final per-rule bounds into the part's TTL info structure", writing its
running bound into the field/key it maintains. -/
def TTLUpdateInfoAlgorithm.finalizeInto (a : TTLUpdateInfoAlgorithm)
    (infos : TTLInfos) : TTLInfos :=
  match a.ttl_update_field with
  | .TABLE_TTL => { infos with table_ttl := a.new_ttl_info }
  | .ROWS_WHERE_TTL =>
      { infos with rows_where_ttl := setTTL infos.rows_where_ttl a.ttl_update_key a.new_ttl_info }
  | .GROUP_BY_TTL =>
      { infos with group_by_ttl := setTTL infos.group_by_ttl a.ttl_update_key a.new_ttl_info }
  | .COLUMNS_TTL =>
      { infos with columns_ttl := setTTL infos.columns_ttl a.ttl_update_key a.new_ttl_info }
  | .MOVES_TTL =>
      { infos with moves_ttl := setTTL infos.moves_ttl a.ttl_update_key a.new_ttl_info }
  | .RECOMPRESSION_TTL =>
      { infos with recompression_ttl := setTTL infos.recompression_ttl a.ttl_update_key a.new_ttl_info }

/-- The TTL rules of a metadata snapshot as `TTLCalcTransform`'s
constructor reads them: the optional table-rows rule and the lists of
rows-where / group-by / per-column / move / recompression rules, each
reduced to its result-column (or column) name. -/
structure TTLMetadata where
  rows_ttl : Option String
  rows_where_ttls : List String
  group_by_ttls : List String
  column_ttls : List String
  moves_ttls : List String
  recompression_ttls : List String
deriving DecidableEq, Repr

/-- `TTLCalcTransform::TTLCalcTransform` (lines 25-76): one
`TTLUpdateInfoAlgorithm` per configured rule, in source order, each handed
the pre-existing bound of the part's TTL infos for its field and key and
the `force` flag. -/
def buildTTLCalcAlgorithms (meta : TTLMetadata) (oldTTLInfos : TTLInfos)
    (force : Bool) : List TTLUpdateInfoAlgorithm :=
  (match meta.rows_ttl with
   | some rc => [mkTTLUpdateInfoAlgorithm .TABLE_TTL rc oldTTLInfos.table_ttl force]
   | none => []) ++
  meta.rows_where_ttls.map
    (fun rc => mkTTLUpdateInfoAlgorithm .ROWS_WHERE_TTL rc
      (lookupTTL oldTTLInfos.rows_where_ttl rc) force) ++
  meta.group_by_ttls.map
    (fun rc => mkTTLUpdateInfoAlgorithm .GROUP_BY_TTL rc
      (lookupTTL oldTTLInfos.group_by_ttl rc) force) ++
  meta.column_ttls.map
    (fun nm => mkTTLUpdateInfoAlgorithm .COLUMNS_TTL nm
      (lookupTTL oldTTLInfos.columns_ttl nm) force) ++
  meta.moves_ttls.map
    (fun rc => mkTTLUpdateInfoAlgorithm .MOVES_TTL rc
      (lookupTTL oldTTLInfos.moves_ttl rc) force) ++
  meta.recompression_ttls.map
    (fun rc => mkTTLUpdateInfoAlgorithm .RECOMPRESSION_TTL rc
      (lookupTTL oldTTLInfos.recompression_ttl rc) force)

/-- `TTLCalcTransform::finalize` (lines 110-115): the part's TTL infos are
first reset to the empty value (`data_part->ttl_infos = {}`, discarding
`partTTLInfos`) and then each algorithm persists its bounds in turn. -/
def ttlCalcFinalize (algorithms : List TTLUpdateInfoAlgorithm)
    (partTTLInfos : TTLInfos) : TTLInfos :=
  algorithms.foldl (fun infos a => a.finalizeInto infos) emptyTTLInfos

/-! ## Concrete instances used to exercise the model -/

/-- A non-projection part under custom partitioning with an initialized
min-max index over one partition-key column. -/
def partInitMinmax : Part :=
  ⟨"all_1_1_0", false, false, true, some "partition.dat", true, ["minmax_d.idx"],
    true, true, true, 1, []⟩

/-- A non-projection part under custom partitioning whose min-max index
was never initialized. -/
def partUninitMinmax : Part :=
  ⟨"all_2_2_0", false, false, true, some "partition.dat", false, [],
    true, true, true, 1, []⟩

/-- A writer that accumulated three rows and one column checksum. -/
def writerThreeRows : WriterState :=
  ⟨3, false, [("d.bin", .columnDataContent "d")], [], [], []⟩

/-- The finalization of `writerThreeRows` into `partInitMinmax`. -/
def asyncRun : Except PartError (Finalizer × DiskState) :=
  finalizePartAsync writerThreeRows partInitMinmax true none (some "LZ4")

/-- The commit handle of `asyncRun`. -/
def finalizerRun : Finalizer :=
  (asyncRun.toOption.map Prod.fst).getD ⟨none⟩

/-- The disk state of `asyncRun`. -/
def diskRun : DiskState :=
  (asyncRun.toOption.map Prod.snd).getD ⟨[], []⟩

/-! ## Lemmas about the checksums map -/

theorem mem_checksumKeys_setEntry_self (c : Checksums) (k : String) (v : FileContent) :
    k ∈ checksumKeys (setEntry c k v) := by
  simp only [checksumKeys, setEntry]
  split
  · next hany =>
    rcases List.any_eq_true.mp hany with ⟨kv, hkv, hEq⟩
    rw [List.map_map]
    refine List.mem_map.mpr ⟨kv, hkv, ?_⟩
    simp [Function.comp, of_decide_eq_true hEq]
  · simp

theorem mem_checksumKeys_setEntry_of_mem {c : Checksums} {k₀ : String}
    (k : String) (v : FileContent) (h : k₀ ∈ checksumKeys c) :
    k₀ ∈ checksumKeys (setEntry c k v) := by
  simp only [checksumKeys, setEntry]
  rcases List.mem_map.mp h with ⟨kv, hkv, rfl⟩
  split
  · rw [List.map_map]
    by_cases hk : kv.1 = k
    · exact List.mem_map.mpr ⟨kv, hkv, by simp [Function.comp, hk]⟩
    · exact List.mem_map.mpr ⟨kv, hkv, by simp [Function.comp, hk]⟩
  · exact List.mem_map.mpr ⟨kv, List.mem_append_left _ hkv, rfl⟩

theorem not_mem_checksumKeys_setEntry {c : Checksums} {k k' : String} {v : FileContent}
    (hk : k ∉ checksumKeys c) (hne : k ≠ k') :
    k ∉ checksumKeys (setEntry c k' v) := by
  simp only [checksumKeys, setEntry]
  split
  · rw [List.map_map]
    intro h
    rcases List.mem_map.mp h with ⟨kv, hkv, hEq⟩
    by_cases hk' : kv.1 = k'
    · simp only [Function.comp, hk', if_pos rfl] at hEq
      exact hne hEq.symm
    · simp only [Function.comp, if_neg hk'] at hEq
      exact hk (List.mem_map.mpr ⟨kv, hkv, hEq⟩)
  · intro h
    simp only [List.map_append, List.map_cons, List.map_nil, List.mem_append,
      List.mem_singleton] at h
    rcases h with h | h
    · exact hk h
    · exact hne h

/-! ## Lemmas about the write steps of `finalizePartOnDisk` -/

theorem written_writeHashedFile (s : DiskState) (f : String) (c : FileContent) :
    (writeHashedFile s f c).written = s.written ++ [⟨f, c⟩] := rfl

theorem written_writePlainFile (s : DiskState) (f : String) (c : FileContent) :
    (writePlainFile s f c).written = s.written ++ [⟨f, c⟩] := rfl

theorem checksums_writePlainFile (s : DiskState) (f : String) (c : FileContent) :
    (writePlainFile s f c).checksums = s.checksums := rfl

theorem mem_written_writeHashedFile_of_mem {s : DiskState} {wf : WrittenFile}
    (f : String) (c : FileContent) (h : wf ∈ s.written) :
    wf ∈ (writeHashedFile s f c).written :=
  List.mem_append_left _ h

theorem mem_written_writePlainFile_of_mem {s : DiskState} {wf : WrittenFile}
    (f : String) (c : FileContent) (h : wf ∈ s.written) :
    wf ∈ (writePlainFile s f c).written :=
  List.mem_append_left _ h

theorem self_mem_written_writeHashedFile (s : DiskState) (f : String) (c : FileContent) :
    WrittenFile.mk f c ∈ (writeHashedFile s f c).written :=
  List.mem_append_right _ (List.mem_singleton.mpr rfl)

theorem mem_written_writeHashedFile_elim {s : DiskState} {wf : WrittenFile}
    {f : String} {c : FileContent} (h : wf ∈ (writeHashedFile s f c).written) :
    wf ∈ s.written ∨ wf = ⟨f, c⟩ := by
  simpa [writeHashedFile] using h

theorem mem_written_writePlainFile_elim {s : DiskState} {wf : WrittenFile}
    {f : String} {c : FileContent} (h : wf ∈ (writePlainFile s f c).written) :
    wf ∈ s.written ∨ wf = ⟨f, c⟩ := by
  simpa [writePlainFile] using h

theorem mem_written_minmaxFold_of_mem (files : List String) {s : DiskState}
    {wf : WrittenFile} (h : wf ∈ s.written) : wf ∈ (minmaxFold files s).written := by
  induction files generalizing s with
  | nil => exact h
  | cons f fs ih =>
    exact ih (mem_written_writeHashedFile_of_mem f .minmaxContent h)

theorem mem_written_minmaxFold_elim {files : List String} {s : DiskState}
    {wf : WrittenFile} (h : wf ∈ (minmaxFold files s).written) :
    wf ∈ s.written ∨ wf.content = .minmaxContent := by
  induction files generalizing s with
  | nil => exact Or.inl h
  | cons f fs ih =>
    rcases ih h with h' | h'
    · rcases mem_written_writeHashedFile_elim h' with h'' | h''
      · exact Or.inl h''
      · exact Or.inr (by simp [h''])
    · exact Or.inr h'

theorem minmax_file_mem_minmaxFold {files : List String} {f : String}
    (s : DiskState) (h : f ∈ files) :
    WrittenFile.mk f .minmaxContent ∈ (minmaxFold files s).written := by
  induction files generalizing s with
  | nil => cases h
  | cons g gs ih =>
    rcases List.mem_cons.mp h with rfl | h'
    · exact mem_written_minmaxFold_of_mem gs
        (self_mem_written_writeHashedFile s f .minmaxContent)
    · exact ih _ h'

theorem mem_checksumKeys_minmaxFold_of_mem (files : List String) {s : DiskState}
    {k : String} (h : k ∈ checksumKeys s.checksums) :
    k ∈ checksumKeys (minmaxFold files s).checksums := by
  induction files generalizing s with
  | nil => exact h
  | cons f fs ih =>
    exact ih (mem_checksumKeys_setEntry_of_mem f .minmaxContent h)

theorem minmax_key_mem_minmaxFold {files : List String} {f : String}
    (s : DiskState) (h : f ∈ files) :
    f ∈ checksumKeys (minmaxFold files s).checksums := by
  induction files generalizing s with
  | nil => cases h
  | cons g gs ih =>
    rcases List.mem_cons.mp h with rfl | h'
    · exact mem_checksumKeys_minmaxFold_of_mem gs
        (mem_checksumKeys_setEntry_self s.checksums f .minmaxContent)
    · exact ih _ h'

theorem not_mem_checksumKeys_minmaxFold {files : List String} {s : DiskState}
    {k : String} (hk : k ∉ checksumKeys s.checksums) (hmem : k ∉ files) :
    k ∉ checksumKeys (minmaxFold files s).checksums := by
  induction files generalizing s with
  | nil => exact hk
  | cons f fs ih =>
    refine ih (not_mem_checksumKeys_setEntry hk ?_) (fun h => hmem (List.mem_cons_of_mem f h))
    intro hEq
    exact hmem (hEq ▸ List.mem_cons_self f fs)

/-! ## Lemmas about the composite steps -/

theorem mem_written_writeUuidPartitionSteps_of_mem (p : Part) {s : DiskState}
    {wf : WrittenFile} (h : wf ∈ s.written) :
    wf ∈ (writeUuidPartitionSteps p s).written := by
  unfold writeUuidPartitionSteps
  split
  · exact h
  · dsimp only
    have h1 : wf ∈ (if p.hasUuid then writeHashedFile s UUID_FILE_NAME .uuidContent else s).written := by
      split
      · exact mem_written_writeHashedFile_of_mem _ _ h
      · exact h
    split
    · split
      · exact mem_written_writeHashedFile_of_mem _ _ h1
      · exact h1
    · exact h1

theorem mem_written_writeMinmaxSourceSteps_of_mem (p : Part) {s : DiskState}
    {wf : WrittenFile} (h : wf ∈ s.written) :
    wf ∈ (writeMinmaxSourceSteps p s).written := by
  unfold writeMinmaxSourceSteps
  split
  · exact h
  · dsimp only
    have h1 : wf ∈ (if p.minmaxInitialized then minmaxFold p.minmaxIdxFiles s else s).written := by
      split
      · exact mem_written_minmaxFold_of_mem _ h
      · exact h
    split
    · exact mem_written_writeHashedFile_of_mem _ _ h1
    · exact h1

theorem mem_written_writeTtlStep_of_mem (p : Part) {s : DiskState}
    {wf : WrittenFile} (h : wf ∈ s.written) : wf ∈ (writeTtlStep p s).written := by
  unfold writeTtlStep
  split
  · exact mem_written_writeHashedFile_of_mem _ _ h
  · exact h

theorem mem_written_writeSerializationStep_of_mem (p : Part) {s : DiskState}
    {wf : WrittenFile} (h : wf ∈ s.written) :
    wf ∈ (writeSerializationStep p s).written := by
  unfold writeSerializationStep
  split
  · exact mem_written_writeHashedFile_of_mem _ _ h
  · exact h

theorem mem_written_writeSubstreamsStep_of_mem (subs : List String) {s : DiskState}
    {wf : WrittenFile} (h : wf ∈ s.written) :
    wf ∈ (writeSubstreamsStep subs s).written := by
  unfold writeSubstreamsStep
  split
  · exact mem_written_writePlainFile_of_mem _ _ h
  · exact h

theorem mem_written_writeUuidPartitionSteps_elim {p : Part} {s : DiskState}
    {wf : WrittenFile} (h : wf ∈ (writeUuidPartitionSteps p s).written) :
    wf ∈ s.written ∨ wf.content = .uuidContent ∨ wf.content = .partitionContent := by
  unfold writeUuidPartitionSteps at h
  split at h
  · exact Or.inl h
  · dsimp only at h
    have elim1 :
        wf ∈ (if p.hasUuid then writeHashedFile s UUID_FILE_NAME .uuidContent else s).written →
        wf ∈ s.written ∨ wf.content = .uuidContent ∨ wf.content = .partitionContent := by
      intro h1
      split at h1
      · rcases mem_written_writeHashedFile_elim h1 with h2 | h2
        · exact Or.inl h2
        · exact Or.inr (Or.inl (by simp [h2]))
      · exact Or.inl h1
    split at h
    · split at h
      · rcases mem_written_writeHashedFile_elim h with h2 | h2
        · exact elim1 h2
        · exact Or.inr (Or.inr (by simp [h2]))
      · exact elim1 h
    · exact elim1 h

theorem mem_written_writeMinmaxSourceSteps_elim {p : Part} {s : DiskState}
    {wf : WrittenFile} (h : wf ∈ (writeMinmaxSourceSteps p s).written) :
    wf ∈ s.written ∨ (wf.content = .minmaxContent ∧ p.minmaxInitialized = true)
      ∨ wf.content = .sourcePartsContent := by
  unfold writeMinmaxSourceSteps at h
  split at h
  · exact Or.inl h
  · dsimp only at h
    have elim1 :
        wf ∈ (if p.minmaxInitialized then minmaxFold p.minmaxIdxFiles s else s).written →
        wf ∈ s.written ∨ (wf.content = .minmaxContent ∧ p.minmaxInitialized = true)
          ∨ wf.content = .sourcePartsContent := by
      intro h1
      split at h1
      · next hinit =>
        rcases mem_written_minmaxFold_elim h1 with h2 | h2
        · exact Or.inl h2
        · exact Or.inr (Or.inl ⟨h2, hinit⟩)
      · exact Or.inl h1
    split at h
    · rcases mem_written_writeHashedFile_elim h with h2 | h2
      · exact elim1 h2
      · exact Or.inr (Or.inr (by simp [h2]))
    · exact elim1 h

theorem mem_written_writeCountStep_elim {rowsCount : Nat} {s : DiskState}
    {wf : WrittenFile} (h : wf ∈ (writeCountStep rowsCount s).written) :
    wf ∈ s.written ∨ wf.content = .natContent rowsCount := by
  rcases mem_written_writeHashedFile_elim h with h1 | h1
  · exact Or.inl h1
  · exact Or.inr (by simp [h1])

theorem mem_written_writeTtlStep_elim {p : Part} {s : DiskState}
    {wf : WrittenFile} (h : wf ∈ (writeTtlStep p s).written) :
    wf ∈ s.written ∨ wf.content = .ttlContent := by
  unfold writeTtlStep at h
  split at h
  · rcases mem_written_writeHashedFile_elim h with h1 | h1
    · exact Or.inl h1
    · exact Or.inr (by simp [h1])
  · exact Or.inl h

theorem mem_written_writeSerializationStep_elim {p : Part} {s : DiskState}
    {wf : WrittenFile} (h : wf ∈ (writeSerializationStep p s).written) :
    wf ∈ s.written ∨ wf.content = .serializationContent := by
  unfold writeSerializationStep at h
  split at h
  · rcases mem_written_writeHashedFile_elim h with h1 | h1
    · exact Or.inl h1
    · exact Or.inr (by simp [h1])
  · exact Or.inl h

theorem mem_written_writeColumnsStep_elim {s : DiskState}
    {wf : WrittenFile} (h : wf ∈ (writeColumnsStep s).written) :
    wf ∈ s.written ∨ wf.content = .columnsContent := by
  rcases mem_written_writePlainFile_elim h with h1 | h1
  · exact Or.inl h1
  · exact Or.inr (by simp [h1])

theorem mem_written_writeSubstreamsStep_elim {subs : List String} {s : DiskState}
    {wf : WrittenFile} (h : wf ∈ (writeSubstreamsStep subs s).written) :
    wf ∈ s.written ∨ wf.content = .substreamsContent := by
  unfold writeSubstreamsStep at h
  split at h
  · rcases mem_written_writePlainFile_elim h with h1 | h1
    · exact Or.inl h1
    · exact Or.inr (by simp [h1])
  · exact Or.inl h

theorem mem_written_writeMetadataVersionStep_elim {p : Part} {s : DiskState}
    {wf : WrittenFile} (h : wf ∈ (writeMetadataVersionStep p s).written) :
    wf ∈ s.written ∨ wf.content = .natContent p.metadataVersion := by
  rcases mem_written_writePlainFile_elim h with h1 | h1
  · exact Or.inl h1
  · exact Or.inr (by simp [h1])

theorem mem_written_writeCodecStep_elim {codecDesc : String} {s : DiskState}
    {wf : WrittenFile} (h : wf ∈ (writeCodecStep codecDesc s).written) :
    wf ∈ s.written ∨ wf.content = .codecContent codecDesc := by
  rcases mem_written_writePlainFile_elim h with h1 | h1
  · exact Or.inl h1
  · exact Or.inr (by simp [h1])

theorem mem_written_writeChecksumsStep_elim {s : DiskState}
    {wf : WrittenFile} (h : wf ∈ (writeChecksumsStep s).written) :
    wf ∈ s.written ∨ wf.content = .checksumsContent (checksumKeys s.checksums) := by
  rcases mem_written_writePlainFile_elim h with h1 | h1
  · exact Or.inl h1
  · exact Or.inr (by simp [h1])

/-! ## Lemmas about `diskAfterMetadata` and `finalizePartOnDisk` -/

theorem count_mem_diskAfterMetadata (p : Part) (rowsCount : Nat) (c0 : Checksums)
    (subs : List String) :
    WrittenFile.mk "count.txt" (.natContent rowsCount) ∈
      (diskAfterMetadata p rowsCount c0 subs).written := by
  unfold diskAfterMetadata
  apply mem_written_writePlainFile_of_mem
  apply mem_written_writeSubstreamsStep_of_mem
  apply mem_written_writePlainFile_of_mem
  apply mem_written_writeSerializationStep_of_mem
  apply mem_written_writeTtlStep_of_mem
  exact self_mem_written_writeHashedFile _ _ _

/-- Every content in `diskAfterMetadata`'s written list is one of the
auxiliary contents it writes; a min-max index content appears only when
the index was initialized. -/
theorem mem_written_diskAfterMetadata_elim {p : Part} {rowsCount : Nat}
    {c0 : Checksums} {subs : List String} {wf : WrittenFile}
    (h : wf ∈ (diskAfterMetadata p rowsCount c0 subs).written) :
    wf.content = .uuidContent ∨ wf.content = .partitionContent
      ∨ (wf.content = .minmaxContent ∧ p.minmaxInitialized = true)
      ∨ wf.content = .sourcePartsContent
      ∨ wf.content = .natContent rowsCount
      ∨ wf.content = .ttlContent
      ∨ wf.content = .serializationContent
      ∨ wf.content = .columnsContent
      ∨ wf.content = .substreamsContent
      ∨ wf.content = .natContent p.metadataVersion := by
  unfold diskAfterMetadata at h
  rcases mem_written_writeMetadataVersionStep_elim h with h | h
  · rcases mem_written_writeSubstreamsStep_elim h with h | h
    · rcases mem_written_writeColumnsStep_elim h with h | h
      · rcases mem_written_writeSerializationStep_elim h with h | h
        · rcases mem_written_writeTtlStep_elim h with h | h
          · rcases mem_written_writeCountStep_elim h with h | h
            · rcases mem_written_writeMinmaxSourceSteps_elim h with h | h | h
              · rcases mem_written_writeUuidPartitionSteps_elim h with h | h | h
                · cases h
                · tauto
                · tauto
              · tauto
              · tauto
            · tauto
          · tauto
        · tauto
      · tauto
    · tauto
  · tauto

theorem not_mem_checksumKeys_writeUuidPartitionSteps {p : Part} {s : DiskState}
    {k : String} (hk : k ∉ checksumKeys s.checksums) (h1 : k ≠ UUID_FILE_NAME)
    (h2 : p.partitionFile ≠ some k) :
    k ∉ checksumKeys (writeUuidPartitionSteps p s).checksums := by
  unfold writeUuidPartitionSteps
  split
  · exact hk
  · dsimp only
    have hA : k ∉ checksumKeys
        (if p.hasUuid then writeHashedFile s UUID_FILE_NAME .uuidContent else s).checksums := by
      split
      · exact not_mem_checksumKeys_setEntry hk h1
      · exact hk
    split
    · split
      · next f hf =>
        refine not_mem_checksumKeys_setEntry hA ?_
        intro hEq
        exact h2 (by rw [hf, hEq])
      · exact hA
    · exact hA

theorem not_mem_checksumKeys_writeMinmaxSourceSteps {p : Part} {s : DiskState}
    {k : String} (hk : k ∉ checksumKeys s.checksums)
    (h1 : k ∉ p.minmaxIdxFiles) (h2 : k ≠ SOURCE_PARTS_SET_FILENAME) :
    k ∉ checksumKeys (writeMinmaxSourceSteps p s).checksums := by
  unfold writeMinmaxSourceSteps
  split
  · exact hk
  · dsimp only
    have hA : k ∉ checksumKeys
        (if p.minmaxInitialized then minmaxFold p.minmaxIdxFiles s else s).checksums := by
      split
      · exact not_mem_checksumKeys_minmaxFold hk h1
      · exact hk
    split
    · exact not_mem_checksumKeys_setEntry hA h2
    · exact hA

theorem not_mem_checksumKeys_diskAfterMetadata {p : Part} {rowsCount : Nat}
    {c0 : Checksums} {subs : List String} {k : String}
    (hc0 : k ∉ checksumKeys c0)
    (huuid : k ≠ UUID_FILE_NAME) (hpart : p.partitionFile ≠ some k)
    (hminmax : k ∉ p.minmaxIdxFiles) (hsrc : k ≠ SOURCE_PARTS_SET_FILENAME)
    (hcount : k ≠ "count.txt") (httl : k ≠ "ttl.txt")
    (hser : k ≠ SERIALIZATION_FILE_NAME) :
    k ∉ checksumKeys (diskAfterMetadata p rowsCount c0 subs).checksums := by
  unfold diskAfterMetadata writeMetadataVersionStep
  rw [checksums_writePlainFile]
  have hsub : ∀ t : DiskState, k ∉ checksumKeys t.checksums →
      k ∉ checksumKeys (writeSubstreamsStep subs t).checksums := by
    intro t ht
    unfold writeSubstreamsStep
    split
    · rw [checksums_writePlainFile]; exact ht
    · exact ht
  apply hsub
  unfold writeColumnsStep
  rw [checksums_writePlainFile]
  have hserStep : ∀ t : DiskState, k ∉ checksumKeys t.checksums →
      k ∉ checksumKeys (writeSerializationStep p t).checksums := by
    intro t ht
    unfold writeSerializationStep
    split
    · exact not_mem_checksumKeys_setEntry ht hser
    · exact ht
  apply hserStep
  have httlStep : ∀ t : DiskState, k ∉ checksumKeys t.checksums →
      k ∉ checksumKeys (writeTtlStep p t).checksums := by
    intro t ht
    unfold writeTtlStep
    split
    · exact not_mem_checksumKeys_setEntry ht httl
    · exact ht
  apply httlStep
  unfold writeCountStep
  apply not_mem_checksumKeys_setEntry ?_ hcount
  apply not_mem_checksumKeys_writeMinmaxSourceSteps ?_ hminmax hsrc
  exact not_mem_checksumKeys_writeUuidPartitionSteps hc0 huuid hpart

theorem mem_checksumKeys_writeTtlStep_of_mem (p : Part) {s : DiskState} {k : String}
    (h : k ∈ checksumKeys s.checksums) :
    k ∈ checksumKeys (writeTtlStep p s).checksums := by
  unfold writeTtlStep
  split
  · exact mem_checksumKeys_setEntry_of_mem _ _ h
  · exact h

theorem mem_checksumKeys_writeSerializationStep_of_mem (p : Part) {s : DiskState}
    {k : String} (h : k ∈ checksumKeys s.checksums) :
    k ∈ checksumKeys (writeSerializationStep p s).checksums := by
  unfold writeSerializationStep
  split
  · exact mem_checksumKeys_setEntry_of_mem _ _ h
  · exact h

theorem mem_checksumKeys_writeSubstreamsStep_of_mem (subs : List String) {s : DiskState}
    {k : String} (h : k ∈ checksumKeys s.checksums) :
    k ∈ checksumKeys (writeSubstreamsStep subs s).checksums := by
  unfold writeSubstreamsStep
  split
  · exact h
  · exact h

/-- When the min-max index of a non-projection custom-partitioned part is
initialized, each of its files is written with minmax content and keyed in
the checksums map by the time `metadata_version.txt` has been written. -/
theorem minmax_mem_diskAfterMetadata {p : Part} {rowsCount : Nat} {c0 : Checksums}
    {subs : List String} {f : String}
    (hproj : p.isProjectionPart = false) (hcustom : p.customPartitioning = true)
    (hinit : p.minmaxInitialized = true) (hf : f ∈ p.minmaxIdxFiles) :
    WrittenFile.mk f .minmaxContent ∈ (diskAfterMetadata p rowsCount c0 subs).written
      ∧ f ∈ checksumKeys (diskAfterMetadata p rowsCount c0 subs).checksums := by
  have hmm : ∀ s : DiskState,
      WrittenFile.mk f .minmaxContent ∈ (writeMinmaxSourceSteps p s).written
      ∧ f ∈ checksumKeys (writeMinmaxSourceSteps p s).checksums := by
    intro s
    have hstep : writeMinmaxSourceSteps p s =
        (if !p.sourcePartsSetEmpty then
          writeHashedFile (minmaxFold p.minmaxIdxFiles s)
            SOURCE_PARTS_SET_FILENAME .sourcePartsContent
        else minmaxFold p.minmaxIdxFiles s) := by
      unfold writeMinmaxSourceSteps
      rw [hproj, hcustom, hinit]
      simp
    rw [hstep]
    split
    · exact ⟨mem_written_writeHashedFile_of_mem _ _ (minmax_file_mem_minmaxFold s hf),
        mem_checksumKeys_setEntry_of_mem _ _ (minmax_key_mem_minmaxFold s hf)⟩
    · exact ⟨minmax_file_mem_minmaxFold s hf, minmax_key_mem_minmaxFold s hf⟩
  unfold diskAfterMetadata writeMetadataVersionStep writeColumnsStep writeCountStep
  constructor
  · apply mem_written_writePlainFile_of_mem
    apply mem_written_writeSubstreamsStep_of_mem
    apply mem_written_writePlainFile_of_mem
    apply mem_written_writeSerializationStep_of_mem
    apply mem_written_writeTtlStep_of_mem
    apply mem_written_writeHashedFile_of_mem
    exact (hmm _).1
  · rw [checksums_writePlainFile]
    apply mem_checksumKeys_writeSubstreamsStep_of_mem
    rw [checksums_writePlainFile]
    apply mem_checksumKeys_writeSerializationStep_of_mem
    apply mem_checksumKeys_writeTtlStep_of_mem
    apply mem_checksumKeys_setEntry_of_mem
    exact (hmm _).2

theorem self_mem_written_writePlainFile (s : DiskState) (f : String) (c : FileContent) :
    WrittenFile.mk f c ∈ (writePlainFile s f c).written :=
  List.mem_append_right _ (List.mem_singleton.mpr rfl)

/-- Shape of `finalizePartOnDisk` when the min-max consistency check
fires: the files written so far are those of the uuid/partition steps, and
the LOGICAL_ERROR exception is raised. -/
theorem finalizePartOnDisk_eq_violation {p : Part} {rowsCount : Nat} {c0 : Checksums}
    {subs : List String} {codec : Option String}
    (h : minmaxUninitViolation p rowsCount = true) :
    finalizePartOnDisk p rowsCount c0 subs codec =
      (writeUuidPartitionSteps p ⟨[], c0⟩,
        some ⟨.LOGICAL_ERROR, "MinMax index was not initialized for new non-empty part"⟩) := by
  unfold finalizePartOnDisk
  split
  · rfl
  · next hc => exact absurd h hc

/-- Shape of `finalizePartOnDisk` when no codec was given (and the minmax
check passed): everything up to `metadata_version.txt` is written, then
the LOGICAL_ERROR exception is raised. -/
theorem finalizePartOnDisk_eq_no_codec {p : Part} {rowsCount : Nat} {c0 : Checksums}
    {subs : List String} (h : minmaxUninitViolation p rowsCount = false) :
    finalizePartOnDisk p rowsCount c0 subs none =
      (diskAfterMetadata p rowsCount c0 subs,
        some ⟨.LOGICAL_ERROR, "Compression codec have to be specified for part on disk"⟩) := by
  unfold finalizePartOnDisk
  split
  · next hc => rw [h] at hc; cases hc
  · rfl

/-- Shape of a successful `finalizePartOnDisk`: the codec descriptor and
the checksums file are written after everything else. -/
theorem finalizePartOnDisk_eq_success {p : Part} {rowsCount : Nat} {c0 : Checksums}
    {subs : List String} {codecDesc : String}
    (h : minmaxUninitViolation p rowsCount = false) :
    finalizePartOnDisk p rowsCount c0 subs (some codecDesc) =
      (writeChecksumsStep (writeCodecStep codecDesc (diskAfterMetadata p rowsCount c0 subs)),
        none) := by
  unfold finalizePartOnDisk
  split
  · next hc => rw [h] at hc; cases hc
  · rfl

/-! ## Claim theorems -/

/-- C3, counterexample: finalizing the concrete part `partUninitMinmax`
(non-projection, custom partitioning, min-max index never initialized)
with ZERO rows and a codec given is NOT rejected: `finalizePartOnDisk`
returns no error, contrary to the claim that this scenario throws a
LOGICAL_ERROR exception. -/
theorem zero_rows_uninit_minmax_not_rejected_C3 :
    partUninitMinmax.minmaxInitialized = false
    ∧ partUninitMinmax.customPartitioning = true
    ∧ partUninitMinmax.isProjectionPart = false
    ∧ (finalizePartOnDisk partUninitMinmax 0 [] [] (some "LZ4")).2 = none := by
  refine ⟨rfl, rfl, rfl, ?_⟩
  rfl

/-- C3, amended: finalizing a part with zero rows and an uninitialized
min-max index is NOT rejected — the LOGICAL_ERROR is raised only when the
row count is non-zero (see C4); with zero rows, finalization succeeds
(given a codec) and silently writes no min-max index file at all. -/
theorem zero_rows_uninit_minmax_C3 (p : Part) (c0 : Checksums) (subs : List String)
    (codecDesc : String) (hinit : p.minmaxInitialized = false) :
    (finalizePartOnDisk p 0 c0 subs (some codecDesc)).2 = none
    ∧ ∀ wf ∈ (finalizePartOnDisk p 0 c0 subs (some codecDesc)).1.written,
        wf.content ≠ .minmaxContent := by
  have hv : minmaxUninitViolation p 0 = false := by
    simp [minmaxUninitViolation]
  rw [finalizePartOnDisk_eq_success hv]
  refine ⟨rfl, ?_⟩
  intro wf h
  rcases mem_written_writeChecksumsStep_elim h with h | hc
  · rcases mem_written_writeCodecStep_elim h with h | hc
    · rcases mem_written_diskAfterMetadata_elim h with
        hc | hc | ⟨hc, hI⟩ | hc | hc | hc | hc | hc | hc | hc
      · simp [hc]
      · simp [hc]
      · rw [hinit] at hI; cases hI
      · simp [hc]
      · simp [hc]
      · simp [hc]
      · simp [hc]
      · simp [hc]
      · simp [hc]
      · simp [hc]
    · simp [hc]
  · simp [hc]

/-- C3, amended, at a concrete input: the zero-row part with uninitialized
min-max index finalizes without error and without any min-max file. -/
theorem zero_rows_uninit_minmax_C3_witness :
    (finalizePartOnDisk partUninitMinmax 0 [] [] (some "LZ4")).2 = none
    ∧ ∀ wf ∈ (finalizePartOnDisk partUninitMinmax 0 [] [] (some "LZ4")).1.written,
        wf.content ≠ .minmaxContent :=
  zero_rows_uninit_minmax_C3 partUninitMinmax [] [] "LZ4" rfl

/-- C4: during `finalizePartOnDisk` of a non-projection part under the
custom-partitioning format version, a non-zero row count with an
uninitialized min-max index fails with a LOGICAL_ERROR exception; an
initialized min-max index has its files written and their checksum
entries added. -/
theorem minmax_index_finalize_C4 (p : Part) (rowsCount : Nat) (c0 : Checksums)
    (subs : List String) (codec : Option String)
    (hproj : p.isProjectionPart = false) (hcustom : p.customPartitioning = true) :
    (p.minmaxInitialized = false → rowsCount ≠ 0 →
      (finalizePartOnDisk p rowsCount c0 subs codec).2 =
        some ⟨.LOGICAL_ERROR, "MinMax index was not initialized for new non-empty part"⟩)
    ∧ (p.minmaxInitialized = true → ∀ f ∈ p.minmaxIdxFiles,
        WrittenFile.mk f .minmaxContent ∈
          (finalizePartOnDisk p rowsCount c0 subs codec).1.written
        ∧ f ∈ checksumKeys (finalizePartOnDisk p rowsCount c0 subs codec).1.checksums) := by
  constructor
  · intro hinit hrows
    have hviol : minmaxUninitViolation p rowsCount = true := by
      simp [minmaxUninitViolation, hproj, hcustom, hinit, hrows]
    rw [finalizePartOnDisk_eq_violation hviol]
  · intro hinit f hf
    have hviol : minmaxUninitViolation p rowsCount = false := by
      simp [minmaxUninitViolation, hinit]
    cases codec with
    | none =>
        rw [finalizePartOnDisk_eq_no_codec hviol]
        exact minmax_mem_diskAfterMetadata hproj hcustom hinit hf
    | some c =>
        rw [finalizePartOnDisk_eq_success hviol]
        refine ⟨?_, ?_⟩
        · exact mem_written_writePlainFile_of_mem _ _
            (mem_written_writePlainFile_of_mem _ _
              (minmax_mem_diskAfterMetadata hproj hcustom hinit hf).1)
        · exact (minmax_mem_diskAfterMetadata hproj hcustom hinit hf).2

/-- C4 at a concrete input: the uninitialized part with five rows is
rejected with the LOGICAL_ERROR exception. -/
theorem minmax_index_finalize_C4_witness :
    (finalizePartOnDisk partUninitMinmax 5 [] [] (some "LZ4")).2 =
      some ⟨.LOGICAL_ERROR, "MinMax index was not initialized for new non-empty part"⟩ :=
  (minmax_index_finalize_C4 partUninitMinmax 5 [] [] (some "LZ4") rfl rfl).1 rfl (by decide)

/-- C5: when no compression codec was given, `finalizePartOnDisk` fails
with a LOGICAL_ERROR exception and `checksums.txt` is never among the
written files; when a codec was given (and the run was not aborted by the
earlier min-max consistency check), `default_compression_codec.txt` is
written with the codec description. -/
theorem compression_codec_required_C5 (p : Part) (rowsCount : Nat) (c0 : Checksums)
    (subs : List String) :
    ((∃ e, (finalizePartOnDisk p rowsCount c0 subs none).2 = some e
        ∧ e.code = .LOGICAL_ERROR)
      ∧ ∀ wf ∈ (finalizePartOnDisk p rowsCount c0 subs none).1.written,
          ∀ ks, wf.content ≠ .checksumsContent ks)
    ∧ (∀ codecDesc : String, minmaxUninitViolation p rowsCount = false →
        WrittenFile.mk DEFAULT_COMPRESSION_CODEC_FILE_NAME (.codecContent codecDesc) ∈
          (finalizePartOnDisk p rowsCount c0 subs (some codecDesc)).1.written) := by
  constructor
  · cases hv : minmaxUninitViolation p rowsCount with
    | true =>
        rw [finalizePartOnDisk_eq_violation hv]
        refine ⟨⟨_, rfl, rfl⟩, ?_⟩
        intro wf h ks
        rcases mem_written_writeUuidPartitionSteps_elim h with h | hc | hc
        · cases h
        · simp [hc]
        · simp [hc]
    | false =>
        rw [finalizePartOnDisk_eq_no_codec hv]
        refine ⟨⟨_, rfl, rfl⟩, ?_⟩
        intro wf h ks
        rcases mem_written_diskAfterMetadata_elim h with
          hc | hc | ⟨hc, _⟩ | hc | hc | hc | hc | hc | hc | hc
        all_goals simp [hc]
  · intro codecDesc hv
    rw [finalizePartOnDisk_eq_success hv]
    exact mem_written_writePlainFile_of_mem _ _
      (self_mem_written_writePlainFile _ _ _)

/-- C6: in every successful run of `finalizePartOnDisk`, `checksums.txt`
is the last file written, and its own name is not among the keys of the
checksums map it records (neither in the written content nor in the final
map), provided the collaborator-chosen file names (incoming column
checksums, the partition file, the min-max files) do not themselves use
the name `checksums.txt`. -/
theorem checksums_txt_last_C6 (p : Part) (rowsCount : Nat) (c0 : Checksums)
    (subs : List String) (codec : Option String)
    (hc0 : "checksums.txt" ∉ checksumKeys c0)
    (hpart : p.partitionFile ≠ some "checksums.txt")
    (hminmax : "checksums.txt" ∉ p.minmaxIdxFiles)
    (hok : (finalizePartOnDisk p rowsCount c0 subs codec).2 = none) :
    (∃ ks, ((finalizePartOnDisk p rowsCount c0 subs codec).1.written).getLast? =
        some ⟨"checksums.txt", .checksumsContent ks⟩ ∧ "checksums.txt" ∉ ks)
    ∧ "checksums.txt" ∉
        checksumKeys (finalizePartOnDisk p rowsCount c0 subs codec).1.checksums := by
  cases hv : minmaxUninitViolation p rowsCount with
  | true => rw [finalizePartOnDisk_eq_violation hv] at hok; cases hok
  | false =>
    cases codec with
    | none => rw [finalizePartOnDisk_eq_no_codec hv] at hok; cases hok
    | some codecDesc =>
      rw [finalizePartOnDisk_eq_success hv]
      have hkeys : "checksums.txt" ∉
          checksumKeys (diskAfterMetadata p rowsCount c0 subs).checksums :=
        not_mem_checksumKeys_diskAfterMetadata hc0 (by decide) hpart hminmax
          (by decide) (by decide) (by decide) (by decide)
      refine ⟨⟨checksumKeys (diskAfterMetadata p rowsCount c0 subs).checksums, ?_, hkeys⟩, hkeys⟩
      unfold writeChecksumsStep
      rw [written_writePlainFile, List.getLast?_concat]
      rfl

theorem writeImpl_rows_count {s : StreamState} {b : Block} {s' : StreamState}
    {evs : List Event} (h : writeImpl s b = .ok (s', evs)) :
    s'.rows_count = s.rows_count + b.rows := by
  unfold writeImpl at h
  split at h
  · cases h
  · by_cases h0 : b.rows = 0
    · rw [if_pos h0] at h
      simp only [Except.ok.injEq, Prod.mk.injEq] at h
      rw [← h.1, h0]
      rfl
    · rw [if_neg h0] at h
      simp only [Except.ok.injEq, Prod.mk.injEq] at h
      rw [← h.1]

theorem writeMany_rows_count (bs : List Block) :
    ∀ (s s' : StreamState) (evs : List Event),
      writeMany s bs = .ok (s', evs) →
      s'.rows_count = s.rows_count + (bs.map Block.rows).sum := by
  induction bs with
  | nil =>
    intro s s' evs h
    simp only [writeMany, Except.ok.injEq, Prod.mk.injEq] at h
    rw [← h.1]
    simp
  | cons b rest ih =>
    intro s s' evs h
    simp only [writeMany] at h
    cases hw : writeImpl s b with
    | error e => rw [hw] at h; cases h
    | ok r =>
      obtain ⟨s1, evs1⟩ := r
      rw [hw] at h
      dsimp only at h
      cases hrest : writeMany s1 rest with
      | error e => rw [hrest] at h; cases h
      | ok r2 =>
        obtain ⟨s2, evs2⟩ := r2
        rw [hrest] at h
        simp only [Except.ok.injEq, Prod.mk.injEq] at h
        have h1 := writeImpl_rows_count hw
        have h2 := ih s1 s2 evs2 hrest
        rw [← h.1, h2, h1]
        simp only [List.map_cons, List.sum_cons]
        omega

/-- In a successful run of `finalizePartOnDisk`, the file `count.txt`
holding the row count is among the written files. -/
theorem count_mem_success {p : Part} {rowsCount : Nat} {c0 : Checksums}
    {subs : List String} {codec : Option String}
    (hok : (finalizePartOnDisk p rowsCount c0 subs codec).2 = none) :
    WrittenFile.mk "count.txt" (.natContent rowsCount) ∈
      (finalizePartOnDisk p rowsCount c0 subs codec).1.written := by
  cases hv : minmaxUninitViolation p rowsCount with
  | true => rw [finalizePartOnDisk_eq_violation hv] at hok; cases hok
  | false =>
    cases codec with
    | none => rw [finalizePartOnDisk_eq_no_codec hv] at hok; cases hok
    | some c =>
      rw [finalizePartOnDisk_eq_success hv]
      exact mem_written_writePlainFile_of_mem _ _
        (mem_written_writePlainFile_of_mem _ _
          (count_mem_diskAfterMetadata p rowsCount c0 subs))

/-- C2: for every sequence of batches written and then finalized, the
value recorded in `count.txt` equals the sum of the batches' row counts;
and a batch with zero rows is a no-op — `writeImpl` emits no event (in
particular it does not invoke the per-column writer) and leaves the stream
state unchanged. -/
theorem count_txt_row_sum_C2 :
    (∀ (resetColumns : Bool) (bs : List Block) (s : StreamState) (evs : List Event),
      writeMany (initialStream resetColumns) bs = .ok (s, evs) →
      s.rows_count = (bs.map Block.rows).sum
      ∧ ∀ (p : Part) (c0 : Checksums) (subs : List String) (codec : Option String),
          (finalizePartOnDisk p s.rows_count c0 subs codec).2 = none →
          WrittenFile.mk "count.txt" (.natContent ((bs.map Block.rows).sum)) ∈
            (finalizePartOnDisk p s.rows_count c0 subs codec).1.written)
    ∧ (∀ (s : StreamState) (b : Block), b.checkNumberOfRows = true → b.rows = 0 →
        writeImpl s b = .ok (s, [])) := by
  constructor
  · intro resetColumns bs s evs h
    have hsum : s.rows_count = (bs.map Block.rows).sum := by
      have := writeMany_rows_count bs (initialStream resetColumns) s evs h
      simpa [initialStream] using this
    refine ⟨hsum, ?_⟩
    intro p c0 subs codec hok
    rw [← hsum]
    exact count_mem_success hok
  · intro s b hchk h0
    unfold writeImpl
    rw [hchk]
    simp [h0]

/-- A successful `wrapFinalizer` returns a handle whose impl carries the
deferred deletions, the written file names and the sync flag. -/
theorem wrapFinalizer_ok {sync : Bool} {filesToRemove : List String}
    {r : DiskState × Option PartError} {fin : Finalizer} {s : DiskState}
    (h : wrapFinalizer sync filesToRemove r = .ok (fin, s)) :
    fin = ⟨some ⟨filesToRemove, s.written.map WrittenFile.name, sync⟩⟩ := by
  obtain ⟨s0, o⟩ := r
  cases o with
  | some e => cases h
  | none =>
    simp only [wrapFinalizer, Except.ok.injEq, Prod.mk.injEq] at h
    rw [← h.1, ← h.2]

theorem fileFinalize_mem_finalizeSyncEvents (sync : Bool) {files : List String}
    {f : String} (h : f ∈ files) :
    Event.fileFinalize f ∈ finalizeSyncEvents sync files := by
  induction files with
  | nil => cases h
  | cons g gs ih =>
    rcases List.mem_cons.mp h with rfl | h'
    · exact List.mem_cons_self _ _
    · exact List.mem_cons_of_mem _ (List.mem_append_right _ (ih h'))

theorem fileSync_mem_finalizeSyncEvents {files : List String} {f : String}
    (h : f ∈ files) : Event.fileSync f ∈ finalizeSyncEvents true files := by
  induction files with
  | nil => cases h
  | cons g gs ih =>
    rcases List.mem_cons.mp h with rfl | h'
    · exact List.mem_cons_of_mem _ (List.mem_append_left _ (List.mem_singleton.mpr rfl))
    · exact List.mem_cons_of_mem _ (List.mem_append_right _ (ih h'))

theorem mem_finalizeSyncEvents_elim {sync : Bool} {files : List String} {e : Event}
    (h : e ∈ finalizeSyncEvents sync files) :
    (∃ f, e = Event.fileFinalize f) ∨ (∃ f, e = Event.fileSync f) := by
  induction files with
  | nil => cases h
  | cons g gs ih =>
    simp only [finalizeSyncEvents, List.mem_cons, List.mem_append] at h
    rcases h with rfl | h | h
    · exact Or.inl ⟨g, rfl⟩
    · split at h
      · exact Or.inr ⟨g, List.mem_singleton.mp h ▸ rfl⟩
      · cases h
    · exact ih h

/-- C1: a commit handle returned by `finalizePartAsync` holds a live impl;
consuming it by either `finish` or `cancel` empties it, so any later
`finish` or `cancel` on the handle performs no action; and destroying the
unconsumed handle performs exactly its `cancel`, which cancels every
pending written file and makes nothing visible. -/
theorem finalizer_single_use_C1 (w : WriterState) (p : Part) (sync : Bool)
    (addChecksums : Option Checksums) (codec : Option String)
    (fin : Finalizer) (s : DiskState)
    (h : finalizePartAsync w p sync addChecksums codec = .ok (fin, s)) :
    fin.impl.isSome = true
    ∧ ((fin.finish).1.impl = none ∧ (fin.cancel).1.impl = none)
    ∧ (((fin.finish).1.finish).2 = [] ∧ ((fin.finish).1.cancel).2 = []
        ∧ ((fin.cancel).1.finish).2 = [] ∧ ((fin.cancel).1.cancel).2 = [])
    ∧ (∀ i, fin.impl = some i →
        fin.destructor = i.cancelEvents
        ∧ (∀ f ∈ i.written_files, Event.fileCancel f ∈ fin.destructor)
        ∧ (∀ e ∈ fin.destructor, e.makesVisible = false)) := by
  have hfin : ∃ i, fin = ⟨some i⟩ := by
    unfold finalizePartAsync at h
    exact ⟨_, wrapFinalizer_ok h⟩
  obtain ⟨i0, rfl⟩ := hfin
  refine ⟨rfl, ⟨rfl, rfl⟩, ⟨rfl, rfl, rfl, rfl⟩, ?_⟩
  intro i hi
  have hi0 : i = i0 := by
    simpa using hi.symm
  subst hi0
  refine ⟨rfl, ?_, ?_⟩
  · intro f hf
    show Event.fileCancel f ∈ i.cancelEvents
    exact List.mem_cons_of_mem _ (List.mem_map_of_mem _ hf)
  · intro e he
    have he' : e ∈ i.cancelEvents := he
    rcases List.mem_cons.mp he' with rfl | he''
    · rfl
    · rcases List.mem_map.mp he'' with ⟨f, _, rfl⟩
      rfl

/-- C1 at a concrete input: the handle produced by `asyncRun` is emptied
by `finish`. -/
theorem finalizer_single_use_C1_witness :
    (finalizerRun.finish).1.impl = none :=
  (finalizer_single_use_C1 writerThreeRows partInitMinmax true none (some "LZ4")
    finalizerRun diskRun rfl).2.1.1

/-- C7: in the event trace of `Finalizer::Impl::finish`, every scheduled
file deletion happens strictly after every file finalize/sync (the trace
splits into a deletion-free prefix holding all finalizes and syncs, and a
suffix holding all deletions and no finalize/sync); and the storage
transaction is committed-and-reopened exactly when the set of files to
remove is non-empty. -/
theorem finish_deletion_order_C7 (i : FinalizerImpl) :
    (∃ a b, i.finishEvents = a ++ b
      ∧ (∀ f ∈ i.written_files, Event.fileFinalize f ∈ a)
      ∧ (i.sync = true → ∀ f ∈ i.written_files, Event.fileSync f ∈ a)
      ∧ (∀ e ∈ a, ∀ n, e ≠ Event.removeFile n)
      ∧ (∀ e ∈ b, ∀ n, e ≠ Event.fileFinalize n ∧ e ≠ Event.fileSync n)
      ∧ (∀ n ∈ i.files_to_remove_after_finish, Event.removeFile n ∈ b))
    ∧ ((Event.commitTransaction ∈ i.finishEvents ∧ Event.beginTransaction ∈ i.finishEvents)
        ↔ i.files_to_remove_after_finish ≠ []) := by
  constructor
  · refine ⟨Event.writerFinish i.sync :: finalizeSyncEvents i.sync i.written_files,
      (if i.files_to_remove_after_finish.isEmpty then []
        else [Event.commitTransaction, Event.beginTransaction]) ++
        i.files_to_remove_after_finish.map Event.removeFile,
      rfl, ?_, ?_, ?_, ?_, ?_⟩
    · intro f hf
      exact List.mem_cons_of_mem _ (fileFinalize_mem_finalizeSyncEvents i.sync hf)
    · intro hs f hf
      rw [hs]
      exact List.mem_cons_of_mem _ (fileSync_mem_finalizeSyncEvents hf)
    · intro e he n
      rcases List.mem_cons.mp he with rfl | he'
      · simp
      · rcases mem_finalizeSyncEvents_elim he' with ⟨g, rfl⟩ | ⟨g, rfl⟩
        · simp
        · simp
    · intro e he n
      rcases List.mem_append.mp he with he' | he'
      · split at he'
        · cases he'
        · rcases List.mem_cons.mp he' with rfl | he''
          · simp
          · rcases List.mem_cons.mp he'' with rfl | he'''
            · simp
            · cases he'''
      · rcases List.mem_map.mp he' with ⟨g, _, rfl⟩
        simp
    · intro n hn
      exact List.mem_append_right _ (List.mem_map_of_mem _ hn)
  · constructor
    · rintro ⟨hc, _⟩
      intro hraw
      unfold FinalizerImpl.finishEvents at hc
      rw [hraw] at hc
      simp only [List.isEmpty_nil, if_true, List.map_nil, List.append_nil,
        List.nil_append] at hc
      rcases List.mem_cons.mp hc with hc' | hc'
      · cases hc'
      · rcases mem_finalizeSyncEvents_elim hc' with ⟨g, hg⟩ | ⟨g, hg⟩
        · cases hg
        · cases hg
    · intro hne
      have hemp : i.files_to_remove_after_finish.isEmpty = false := by
        cases hfe : i.files_to_remove_after_finish with
        | nil => exact absurd hfe hne
        | cons x xs => rfl
      unfold FinalizerImpl.finishEvents
      rw [hemp]
      simp only [Bool.false_eq_true, if_false]
      constructor
      · exact List.mem_cons_of_mem _ (List.mem_append_right _
          (List.mem_append_left _ (List.mem_cons_self _ _)))
      · exact List.mem_cons_of_mem _ (List.mem_append_right _
          (List.mem_append_left _ (List.mem_cons_of_mem _ (List.mem_singleton.mpr rfl))))

/-- C10: the synchronous `finalizePart` is observably equivalent to
`finalizePartAsync` followed immediately by `finish` on the returned
handle — the destructor of the temporary handle contributes nothing,
because `finish` has already consumed its impl. -/
theorem finalizePart_refines_async_C10 (w : WriterState) (p : Part) (sync : Bool)
    (addChecksums : Option Checksums) (codec : Option String) :
    finalizePart w p sync addChecksums codec =
      finalizeAsyncThenFinish w p sync addChecksums codec := by
  unfold finalizePart finalizeAsyncThenFinish
  cases h : finalizePartAsync w p sync addChecksums codec with
  | error e => rfl
  | ok r =>
    obtain ⟨fin, s⟩ := r
    obtain ⟨impl⟩ := fin
    cases impl with
    | none => simp [Finalizer.finish, Finalizer.destructor, Finalizer.cancel]
    | some i => simp [Finalizer.finish, Finalizer.destructor, Finalizer.cancel]

theorem foldl_finalizeInto_table_ttl {algorithms : List TTLUpdateInfoAlgorithm} :
    ∀ {acc : TTLInfos}, acc.table_ttl = none →
      (∀ a ∈ algorithms, a.ttl_update_field ≠ .TABLE_TTL) →
      (algorithms.foldl (fun infos a => a.finalizeInto infos) acc).table_ttl = none := by
  induction algorithms with
  | nil => intro acc hacc _; exact hacc
  | cons a rest ih =>
    intro acc hacc hall
    have ha : a.ttl_update_field ≠ .TABLE_TTL := hall a (List.mem_cons_self _ _)
    have hstep : (a.finalizeInto acc).table_ttl = none := by
      unfold TTLUpdateInfoAlgorithm.finalizeInto
      cases hf : a.ttl_update_field
      · exact absurd hf ha
      · exact hacc
      · exact hacc
      · exact hacc
      · exact hacc
      · exact hacc
    exact ih hstep (fun b hb => hall b (List.mem_cons_of_mem _ hb))

theorem foldl_finalizeInto_columns_ttl {algorithms : List TTLUpdateInfoAlgorithm} :
    ∀ {acc : TTLInfos}, acc.columns_ttl = [] →
      (∀ a ∈ algorithms, a.ttl_update_field ≠ .COLUMNS_TTL) →
      (algorithms.foldl (fun infos a => a.finalizeInto infos) acc).columns_ttl = [] := by
  induction algorithms with
  | nil => intro acc hacc _; exact hacc
  | cons a rest ih =>
    intro acc hacc hall
    have ha : a.ttl_update_field ≠ .COLUMNS_TTL := hall a (List.mem_cons_self _ _)
    have hstep : (a.finalizeInto acc).columns_ttl = [] := by
      unfold TTLUpdateInfoAlgorithm.finalizeInto
      cases hf : a.ttl_update_field
      · exact hacc
      · exact hacc
      · exact hacc
      · exact absurd hf ha
      · exact hacc
      · exact hacc
    exact ih hstep (fun b hb => hall b (List.mem_cons_of_mem _ hb))

/-- C8: `TTLCalcTransform::finalize` replaces the part's TTL info
structure wholesale: the result never depends on the previous TTL infos,
and a field for which no rule algorithm is configured ends empty even if
the previous infos had bounds there — nothing is merged. -/
theorem ttl_finalize_replaces_C8 :
    (∀ (algorithms : List TTLUpdateInfoAlgorithm) (old1 old2 : TTLInfos),
      ttlCalcFinalize algorithms old1 = ttlCalcFinalize algorithms old2)
    ∧ (∀ (algorithms : List TTLUpdateInfoAlgorithm) (old : TTLInfos),
      (∀ a ∈ algorithms, a.ttl_update_field ≠ .TABLE_TTL) →
      (ttlCalcFinalize algorithms old).table_ttl = none)
    ∧ (∀ (algorithms : List TTLUpdateInfoAlgorithm) (old : TTLInfos),
      (∀ a ∈ algorithms, a.ttl_update_field ≠ .COLUMNS_TTL) →
      (ttlCalcFinalize algorithms old).columns_ttl = []) := by
  refine ⟨fun algorithms old1 old2 => rfl, ?_, ?_⟩
  · intro algorithms old hall
    exact foldl_finalizeInto_table_ttl rfl hall
  · intro algorithms old hall
    exact foldl_finalizeInto_columns_ttl rfl hall

/-- Algorithms other than the table-rows one do not touch the table
bound. -/
theorem finalizeInto_preserves_table_ttl {a : TTLUpdateInfoAlgorithm}
    (h : a.ttl_update_field ≠ .TABLE_TTL) (infos : TTLInfos) :
    (a.finalizeInto infos).table_ttl = infos.table_ttl := by
  unfold TTLUpdateInfoAlgorithm.finalizeInto
  cases hf : a.ttl_update_field
  · exact absurd hf h
  · rfl
  · rfl
  · rfl
  · rfl
  · rfl

theorem buildTTLCalcAlgorithms_fields {meta : TTLMetadata} {old : TTLInfos}
    {force : Bool} {a : TTLUpdateInfoAlgorithm}
    (ha : a ∈ buildTTLCalcAlgorithms meta old force) :
    a.force = force
    ∧ (a.ttl_update_field = .TABLE_TTL →
        meta.rows_ttl = some a.ttl_update_key ∧ a.old_ttl_info = old.table_ttl) := by
  unfold buildTTLCalcAlgorithms at ha
  simp only [List.mem_append, List.mem_map] at ha
  rcases ha with ((((h | h) | h) | h) | h) | h
  · cases hrt : meta.rows_ttl with
    | none => rw [hrt] at h; cases h
    | some rc =>
      rw [hrt] at h
      rcases List.mem_singleton.mp h with rfl
      exact ⟨rfl, fun _ => ⟨rfl, rfl⟩⟩
  · rcases h with ⟨rc, _, rfl⟩
    exact ⟨rfl, fun hc => by cases hc⟩
  · rcases h with ⟨rc, _, rfl⟩
    exact ⟨rfl, fun hc => by cases hc⟩
  · rcases h with ⟨nm, _, rfl⟩
    exact ⟨rfl, fun hc => by cases hc⟩
  · rcases h with ⟨rc, _, rfl⟩
    exact ⟨rfl, fun hc => by cases hc⟩
  · rcases h with ⟨rc, _, rfl⟩
    exact ⟨rfl, fun hc => by cases hc⟩

/-- C9: a TTL rule algorithm constructed with `force = false` is seeded
from the pre-existing bound and, when it consumes no matching rows,
finalizes to exactly the previously recorded bound; with `force = true`
the bound is recomputed from scratch from the consumed timestamps,
independently of (and even when narrower than) the previous bound.  The
`TTLCalcTransform` constructor hands each rule its pre-existing bound, so
with `force = false` every freshly built algorithm starts at it. -/
theorem ttl_force_recompute_C9 :
    (∀ (field : TTLUpdateField) (key : String) (old : TTLInfo),
      ((mkTTLUpdateInfoAlgorithm field key old false).executeRows []).new_ttl_info = old)
    ∧ (∀ (field : TTLUpdateField) (key : String) (old1 old2 : TTLInfo) (ts : List Nat),
      ((mkTTLUpdateInfoAlgorithm field key old1 true).executeRows ts).new_ttl_info =
        ts.foldl ttlUpdate none
      ∧ ((mkTTLUpdateInfoAlgorithm field key old1 true).executeRows ts).new_ttl_info =
        ((mkTTLUpdateInfoAlgorithm field key old2 true).executeRows ts).new_ttl_info)
    ∧ (∀ (meta : TTLMetadata) (old : TTLInfos) (a : TTLUpdateInfoAlgorithm),
      a ∈ buildTTLCalcAlgorithms meta old false → a.new_ttl_info = a.old_ttl_info) := by
  refine ⟨fun field key old => rfl, fun field key old1 old2 ts => ⟨rfl, rfl⟩, ?_⟩
  intro meta old a ha
  unfold buildTTLCalcAlgorithms at ha
  simp only [List.mem_append, List.mem_map] at ha
  rcases ha with ((((h | h) | h) | h) | h) | h
  · cases hrt : meta.rows_ttl with
    | none => rw [hrt] at h; cases h
    | some rc =>
      rw [hrt] at h
      rcases List.mem_singleton.mp h with rfl
      rfl
  · rcases h with ⟨rc, _, rfl⟩; rfl
  · rcases h with ⟨rc, _, rfl⟩; rfl
  · rcases h with ⟨nm, _, rfl⟩; rfl
  · rcases h with ⟨rc, _, rfl⟩; rfl
  · rcases h with ⟨rc, _, rfl⟩; rfl

/-- C6 at a concrete input: the three-row finalization of
`partInitMinmax`. -/
theorem checksums_txt_last_C6_witness :
    (∃ ks, ((finalizePartOnDisk partInitMinmax 3 [] [] (some "LZ4")).1.written).getLast? =
        some ⟨"checksums.txt", .checksumsContent ks⟩ ∧ "checksums.txt" ∉ ks)
    ∧ "checksums.txt" ∉
        checksumKeys (finalizePartOnDisk partInitMinmax 3 [] [] (some "LZ4")).1.checksums :=
  checksums_txt_last_C6 partInitMinmax 3 [] [] (some "LZ4")
    (by decide) (by decide) (by decide) rfl

end ClickHouse
